import Mathlib

/-!
# Verification of the `angie` Merkle-tree library

Shallow embedding of `src/hash.rs` and `src/merkle_tree.rs` (a perfect,
padded Merkle tree with inclusion proofs), together with theorems settling
the specification's claims.

Modelling conventions:
* Rust `usize` values become `Nat`; `Vec` becomes `List`.
* Panics (`panic!`, `assert!`, out-of-bounds indexing, `usize` subtraction
  underflow, `unwrap` on `None`) are modelled by `Option`: `none` is a panic.
* The `Hasher<N>` trait becomes a structure with the two methods `hash` and
  `concat_hashes`; the trait's default body of `concat_hashes` is embedded
  separately (`Hasher.defaultConcatHashes`) over byte-vector hash values.
* `usize::next_power_of_two` and the two loops of `merkle_tree.rs` are
  translated with an explicit fuel argument so that every definition is
  structurally recursive (hence computable by `decide`/`rfl`); the fuel
  chosen by the callers provably never runs out on the reachable states.
-/

namespace Angie

/-- Type `Hash<N>` from `src/hash.rs`: a hash value wrapping exactly `N` bytes
(`pub struct Hash<const N: usize>(pub [u8; N])`). Bytes are modelled as `Nat`. -/
structure Hash (N : Nat) where
  bytes : List Nat
  len_eq : bytes.length = N

/-- The `Hasher<N>` trait from `src/hash.rs`, as used by `merkle_tree.rs`:
a hash function on items together with a pairwise concatenation hash.
The tree code is generic in the item type, the hash-value type and the
hasher, so the embedding is too. -/
structure Hasher (Item H : Type) where
  hash : Item → H
  concat_hashes : H → H → H

/-- The default body of `Hasher::concat_hashes` from `src/hash.rs`: build the
byte vector `value` by extending an empty vector with the bytes of `left` and
then the bytes of `right`, and hash it. -/
def Hasher.defaultConcatHashes {N : Nat} (hashBytes : List Nat → Hash N)
    (left right : Hash N) : Hash N :=
  let value : List Nat := []
  let value := value ++ left.bytes
  let value := value ++ right.bytes
  hashBytes value

/-- The loop body of `usize::next_power_of_two`: starting from `power`,
keep doubling while `power < n`.  `fuel` bounds the number of doublings;
`nextPowerOfTwo` supplies enough fuel for the loop to finish. -/
def nextPowerOfTwoGo (n : Nat) : Nat → Nat → Nat
  | power, 0 => power
  | power, fuel + 1 => if power < n then nextPowerOfTwoGo n (power * 2) fuel else power

/-- Function `usize::next_power_of_two` (used as `items.len().next_power_of_two()` in
`MerkleTree::new`): the smallest power of two that is greater than or equal
to `n` (and `1` for `n = 0`). -/
def nextPowerOfTwo (n : Nat) : Nat :=
  nextPowerOfTwoGo n 1 n

/-- The leaf iterator of `MerkleTree::new`:
`items.iter().map(hash).chain(iter::repeat(last_hash)).take(leaf_count)` —
take `n` elements from `xs` extended by an infinite repetition of `pad`. -/
def streamTake {H : Type} : List H → H → Nat → List H
  | _, _, 0 => []
  | [], pad, n + 1 => pad :: streamTake [] pad n
  | x :: xs, pad, n + 1 => x :: streamTake xs pad n

/-- One parent level of `MerkleTree::new`:
`level.chunks(2).map(|chunk| concat_hashes(chunk[0], chunk[1]))`.
`chunks(2)` on an odd-length slice ends with a singleton chunk, for which
`chunk[1]` panics — modelled by `none`. -/
def combinePairs {H : Type} (c : H → H → H) : List H → Option (List H)
  | [] => some []
  | [_] => none
  | a :: b :: rest => (combinePairs c rest).map fun parents => c a b :: parents

/-- The level-building loop of `MerkleTree::new`: while the current level has
more than one node, append the parent level (pairwise concatenation hashes)
to the node buffer.  Returns the whole flat buffer: the given level followed
by all levels above it. -/
def buildLevels {H : Type} (c : H → H → H) : Nat → List H → Option (List H)
  | 0, level => if level.length ≤ 1 then some level else none
  | fuel + 1, level =>
    if level.length ≤ 1 then
      some level
    else
      (combinePairs c level).bind fun parents =>
        (buildLevels c fuel parents).map fun rest => level ++ rest

/-- Structure `MerkleTree<N>` from `src/merkle_tree.rs`: the flat node buffer (levels
stored contiguously, leaves first, root last) and the leaf count. -/
structure MerkleTree (H : Type) where
  nodes : List H
  leaf_count : Nat

/-- Constructor `MerkleTree::new`: hash the items, pad with the hash of the last item to
the next power of two, then build all levels.  `none` models the
`panic!("Merkle tree must not be empty")` on an empty item slice. -/
def MerkleTree.new {Item H : Type} (items : List Item) (hasher : Hasher Item H) :
    Option (MerkleTree H) :=
  match items.getLast? with
  | none => none
  | some last =>
    let last_hash := hasher.hash last
    let leaf_count := nextPowerOfTwo items.length
    let leaves := streamTake (items.map hasher.hash) last_hash leaf_count
    (buildLevels hasher.concat_hashes leaf_count leaves).map fun nodes =>
      { nodes := nodes, leaf_count := leaf_count }

/-- Method `MerkleTree::root`: `*self.nodes.last().unwrap()`; `none` models the
`unwrap` panic on an empty buffer. -/
def MerkleTree.root {H : Type} (t : MerkleTree H) : Option H :=
  t.nodes.getLast?

/-- Type `PositionedHash<N>`: a sibling hash tagged with the side it sits on. -/
inductive PositionedHash (H : Type) where
  | Left (h : H)
  | Right (h : H)
deriving DecidableEq

/-- Structure `MerkleProof<N>`: a snapshot of the root and the leaf-to-root path of
positioned sibling hashes. -/
structure MerkleProof (H : Type) where
  root : H
  path : List (PositionedHash H)
deriving DecidableEq

/-- The path-collecting loop of `MerkleTree::proof`.  While `level_len > 1`:
record `Right(nodes[index + 1])` if `index` is even and `Left(nodes[index - 1])`
if odd, then update
`index = index + level_len - (index - prev_level_len + 1) / 2`.
`none` models the panics: out-of-bounds indexing and `usize` underflow of
`index - prev_level_len` (the outer subtraction never underflows because the
subtrahend is at most `(index + 1) / 2 ≤ index + level_len`).  `fuel` makes
the loop structurally recursive; callers pass enough. -/
def proofLoop {H : Type} (nodes : List H) :
    Nat → Nat → Nat → Nat → Option (List (PositionedHash H))
  | 0, _, _, _ => none
  | fuel + 1, index, prev_level_len, level_len =>
    if level_len > 1 then
      (if index % 2 = 0 then (nodes[index + 1]?).map PositionedHash.Right
       else (nodes[index - 1]?).map PositionedHash.Left).bind fun position =>
        if index < prev_level_len then none
        else
          (proofLoop nodes fuel (index + level_len - (index - prev_level_len + 1) / 2)
              level_len (level_len / 2)).map fun path => position :: path
    else some []

/-- Method `MerkleTree::proof`: assert `index < leaf_count` (`none` on violation),
walk the levels collecting positioned sibling hashes, and pair the path with
a copy of the root. -/
def MerkleTree.proof {H : Type} (t : MerkleTree H) (index : Nat) :
    Option (MerkleProof H) :=
  if index < t.leaf_count then
    (proofLoop t.nodes t.leaf_count index 0 t.leaf_count).bind fun path =>
      t.root.map fun r => { root := r, path := path }
  else none

/-- Method `MerkleProof::validate`: hash the item, fold the path leaf-to-root
(`Left(l)` sets `hash = concat_hashes(l, hash)`, `Right(r)` sets
`hash = concat_hashes(hash, r)`), and compare with the stored root. -/
def MerkleProof.validate {Item H : Type} [DecidableEq H] (p : MerkleProof H)
    (item : Item) (hasher : Hasher Item H) : Bool :=
  let hash := hasher.hash item
  let hash := p.path.foldl
    (fun hash positioned_hash =>
      match positioned_hash with
      | PositionedHash.Left left => hasher.concat_hashes left hash
      | PositionedHash.Right right => hasher.concat_hashes hash right)
    hash
  decide (hash = p.root)

/-- A free (term-algebra) hash value: the result of hashing an item, or of
concatenation-hashing two hash values.  Distinct hashing histories give
distinct values, so this instantiates the hasher capability as a perfectly
collision-free hash — the stand-in for the out-of-scope SHA3 collaborator. -/
inductive FreeHash (Item : Type) where
  | item (a : Item)
  | node (l r : FreeHash Item)
deriving DecidableEq

/-- The free hasher over `FreeHash`: `hash` is the `item` embedding and
`concat_hashes` is the free binary node constructor. -/
def freeHasher (Item : Type) : Hasher Item (FreeHash Item) :=
  { hash := FreeHash.item, concat_hashes := FreeHash.node }

/-- The `k`-fold application of `combinePairs`: the `k`-th level of the tree as a
function of the leaf level. -/
def iterPairs {H : Type} (c : H → H → H) : Nat → List H → Option (List H)
  | 0, level => some level
  | k + 1, level => (combinePairs c level).bind (iterPairs c k)

/-- The offset in the flat node buffer at which level `k` starts, for a tree
with `L` leaves: the sum of the lengths `L / 2 ^ j` of the levels below it. -/
def levelStart (L : Nat) : Nat → Nat
  | 0 => 0
  | k + 1 => levelStart L k + L / 2 ^ k

/-- The four-leaf tree over the items `0..3` and the free hasher, used to
instantiate hypotheses at a concrete input. -/
def witnessTree4 : MerkleTree (FreeHash Nat) :=
  { nodes := [FreeHash.item 0, FreeHash.item 1, FreeHash.item 2, FreeHash.item 3,
      FreeHash.node (FreeHash.item 0) (FreeHash.item 1),
      FreeHash.node (FreeHash.item 2) (FreeHash.item 3),
      FreeHash.node (FreeHash.node (FreeHash.item 0) (FreeHash.item 1))
        (FreeHash.node (FreeHash.item 2) (FreeHash.item 3))],
    leaf_count := 4 }

/-! ## Helper lemmas -/

theorem nextPowerOfTwoGo_pow (n : Nat) :
    ∀ (fuel s : Nat), ∃ r, s ≤ r ∧ nextPowerOfTwoGo n (2 ^ s) fuel = 2 ^ r := by
  intro fuel
  induction fuel with
  | zero => intro s; exact ⟨s, le_refl s, rfl⟩
  | succ fuel ih =>
    intro s
    by_cases h : 2 ^ s < n
    · obtain ⟨r, hsr, hr⟩ := ih (s + 1)
      refine ⟨r, by omega, ?_⟩
      simpa [nextPowerOfTwoGo, h, pow_succ] using hr
    · exact ⟨s, le_refl s, by simp [nextPowerOfTwoGo, h]⟩

theorem nextPowerOfTwoGo_ge (n : Nat) :
    ∀ (fuel power : Nat), n ≤ power * 2 ^ fuel → n ≤ nextPowerOfTwoGo n power fuel := by
  intro fuel
  induction fuel with
  | zero => intro power h; simpa [nextPowerOfTwoGo] using h
  | succ fuel ih =>
    intro power h
    by_cases hlt : power < n
    · simp only [nextPowerOfTwoGo, hlt, if_true]
      refine ih (power * 2) ?_
      rw [pow_succ] at h
      calc n ≤ power * (2 ^ fuel * 2) := h
      _ = power * 2 * 2 ^ fuel := by ring
    · simp only [nextPowerOfTwoGo, hlt, if_false]
      omega

theorem nextPowerOfTwoGo_min (n : Nat) :
    ∀ (fuel s t : Nat), n ≤ 2 ^ t → s ≤ t → nextPowerOfTwoGo n (2 ^ s) fuel ≤ 2 ^ t := by
  intro fuel
  induction fuel with
  | zero => intro s t _ hst; exact Nat.pow_le_pow_right (by norm_num) hst
  | succ fuel ih =>
    intro s t hn hst
    by_cases h : 2 ^ s < n
    · have hs_lt : s < t := by
        by_contra hc
        have : s = t := by omega
        subst this
        omega
      simp only [nextPowerOfTwoGo, h, if_true]
      have := ih (s + 1) t hn (by omega)
      simpa [pow_succ] using this
    · simp only [nextPowerOfTwoGo, h, if_false]
      exact Nat.pow_le_pow_right (by norm_num) hst

/-- Value `nextPowerOfTwo n` is a power of two. -/
theorem nextPowerOfTwo_isPow (n : Nat) : ∃ m, nextPowerOfTwo n = 2 ^ m := by
  obtain ⟨r, _, hr⟩ := nextPowerOfTwoGo_pow n n 0
  exact ⟨r, by simpa [nextPowerOfTwo] using hr⟩

/-- Value `nextPowerOfTwo n` is at least `n`. -/
theorem nextPowerOfTwo_ge (n : Nat) : n ≤ nextPowerOfTwo n := by
  have := nextPowerOfTwoGo_ge n n 1 (by have := Nat.lt_two_pow n; omega)
  simpa [nextPowerOfTwo] using this

/-- Value `nextPowerOfTwo n` is the least power of two that is `≥ n`. -/
theorem nextPowerOfTwo_min (n t : Nat) (h : n ≤ 2 ^ t) : nextPowerOfTwo n ≤ 2 ^ t := by
  have := nextPowerOfTwoGo_min n n 0 t h (Nat.zero_le t)
  simpa [nextPowerOfTwo] using this

/-- On a power of two, `nextPowerOfTwo` is the identity. -/
theorem nextPowerOfTwo_pow (m : Nat) : nextPowerOfTwo (2 ^ m) = 2 ^ m :=
  Nat.le_antisymm (nextPowerOfTwo_min (2 ^ m) m (le_refl _)) (nextPowerOfTwo_ge (2 ^ m))

/-- Positivity: `nextPowerOfTwo n ≥ 1`. -/
theorem nextPowerOfTwo_pos (n : Nat) : 1 ≤ nextPowerOfTwo n := by
  obtain ⟨m, hm⟩ := nextPowerOfTwo_isPow n
  rw [hm]
  exact Nat.one_le_two_pow

theorem streamTake_length {H : Type} (pad : H) :
    ∀ (n : Nat) (xs : List H), (streamTake xs pad n).length = n := by
  intro n
  induction n with
  | zero => intro xs; cases xs <;> rfl
  | succ n ih => intro xs; cases xs <;> simp [streamTake, ih]

theorem streamTake_eq_append {H : Type} (pad : H) :
    ∀ (xs : List H) (n : Nat), xs.length ≤ n →
      streamTake xs pad n = xs ++ List.replicate (n - xs.length) pad := by
  intro xs
  induction xs with
  | nil =>
    intro n _
    simp only [List.nil_append, List.length_nil, Nat.sub_zero]
    induction n with
    | zero => rfl
    | succ n ihn => simp [streamTake, List.replicate, ihn]
  | cons x xs ih =>
    intro n hn
    match n with
    | n + 1 =>
      simp only [streamTake, List.cons_append, List.length_cons]
      rw [ih n (by simpa using hn)]
      have he : n + 1 - (xs.length + 1) = n - xs.length := by omega
      rw [he]

theorem combinePairs_even {H : Type} (c : H → H → H) :
    ∀ (k : Nat) (level : List H), level.length = 2 * k →
      ∃ parents, combinePairs c level = some parents ∧ parents.length = k := by
  intro k
  induction k with
  | zero =>
    intro level hlen
    match level, hlen with
    | [], _ => exact ⟨[], rfl, rfl⟩
  | succ k ih =>
    intro level hlen
    match level with
    | a :: b :: rest =>
      obtain ⟨parents, hp, hplen⟩ := ih rest (by simp at hlen; omega)
      exact ⟨c a b :: parents, by simp [combinePairs, hp], by simp [hplen]⟩

/-- On a level of length `2 ^ m` with fuel at least `m`, the level-building
loop succeeds, its output starts with the given level, and the output has
exactly `2 ^ (m + 1) - 1` nodes in total. -/
theorem buildLevels_pow {H : Type} (c : H → H → H) :
    ∀ (m fuel : Nat) (level : List H), level.length = 2 ^ m → m ≤ fuel →
      ∃ rest, buildLevels c fuel level = some (level ++ rest) ∧
        (level ++ rest).length = 2 ^ (m + 1) - 1 := by
  intro m
  induction m with
  | zero =>
    intro fuel level hlen _
    refine ⟨[], ?_, by simp [hlen]⟩
    match fuel with
    | 0 => simp [buildLevels, hlen]
    | fuel + 1 => simp [buildLevels, hlen]
  | succ m ih =>
    intro fuel level hlen hfuel
    match fuel with
    | fuel + 1 =>
      have hlen2 : ¬ level.length ≤ 1 := by
        rw [hlen]
        have : 2 ≤ 2 ^ (m + 1) := by
          calc 2 = 2 ^ 1 := rfl
          _ ≤ 2 ^ (m + 1) := Nat.pow_le_pow_right (by norm_num) (by omega)
        omega
      obtain ⟨parents, hp, hplen⟩ := combinePairs_even c (2 ^ m) level (by rw [hlen]; ring)
      obtain ⟨rest, hb, hblen⟩ := ih fuel parents hplen (by omega)
      refine ⟨parents ++ rest, ?_, ?_⟩
      · simp [buildLevels, hlen2, hp, hb]
      · have h1 : 1 ≤ 2 ^ (m + 1) := Nat.one_le_two_pow
        simp only [List.length_append] at hblen ⊢
        rw [hlen]
        rw [pow_succ, pow_succ] at *
        omega

/-- The leaf level computed by `MerkleTree::new`: the item hashes padded on
the right with the hash of the last item, `nextPowerOfTwo` items in total. -/
def leafHashes {Item H : Type} (items : List Item) (hasher : Hasher Item H) (last : Item) :
    List H :=
  streamTake (items.map hasher.hash) (hasher.hash last) (nextPowerOfTwo items.length)

/-- Central success lemma for `MerkleTree::new`: on a non-empty item list the
construction succeeds, `leaf_count` is `nextPowerOfTwo items.length`, the
node buffer starts with the leaf level and has `2 * leaf_count - 1` nodes. -/
theorem MerkleTree.new_spec {Item H : Type} (items : List Item) (hasher : Hasher Item H)
    (x : Item) (hx : items.getLast? = some x) :
    ∃ rest,
      MerkleTree.new items hasher =
        some { nodes := leafHashes items hasher x ++ rest,
               leaf_count := nextPowerOfTwo items.length } ∧
      (leafHashes items hasher x ++ rest).length = 2 * nextPowerOfTwo items.length - 1 := by
  obtain ⟨m, hm⟩ := nextPowerOfTwo_isPow items.length
  have hleaves_len : (leafHashes items hasher x).length = 2 ^ m := by
    rw [leafHashes, streamTake_length, hm]
  have hfuel : m ≤ nextPowerOfTwo items.length := by
    rw [hm]; exact Nat.le_of_lt (Nat.lt_two_pow m)
  obtain ⟨rest, hb, hblen⟩ :=
    buildLevels_pow hasher.concat_hashes m (nextPowerOfTwo items.length)
      (leafHashes items hasher x) hleaves_len hfuel
  refine ⟨rest, ?_, ?_⟩
  · rw [MerkleTree.new, hx]
    simp only [leafHashes] at hb ⊢
    simp only [hb, Option.map_some']
  · rw [hblen, hm, pow_succ]
    omega

/-- The no-panic invariant of the proof walk, after the first iteration:
with `prev_level_len = 2 * 2 ^ t` and `level_len = 2 ^ t`, starting index at
least `prev_level_len` and below `2 * L - 2 ^ t`, and fuel at least `2 ^ t`,
the loop completes without out-of-bounds access or underflow. -/
theorem proofLoop_some {H : Type} (nodes : List H) (L : Nat)
    (hnodes : nodes.length = 2 * L - 1) :
    ∀ (t fuel index : Nat), 2 ^ t ≤ fuel → 2 ^ (t + 1) ≤ L →
      2 * 2 ^ t ≤ index → index < 2 * L - 2 ^ t →
      ∃ path, proofLoop nodes fuel index (2 * 2 ^ t) (2 ^ t) = some path := by
  intro t
  induction t with
  | zero =>
    intro fuel index hfuel _ _ _
    have h1 : 1 ≤ fuel := by simpa using hfuel
    obtain ⟨fuel, rfl⟩ : ∃ f, fuel = f + 1 := ⟨fuel - 1, by omega⟩
    exact ⟨[], by simp [proofLoop]⟩
  | succ t ih =>
    intro fuel index hfuel hL hprev hub
    have hpow1 : (1 : Nat) ≤ 2 ^ t := Nat.one_le_two_pow
    have hps : 2 ^ (t + 1) = 2 * 2 ^ t := by ring
    have hps2 : 2 ^ (t + 2) = 4 * 2 ^ t := by ring
    rw [hps2] at hL
    rw [hps] at hfuel hprev hub ⊢
    obtain ⟨fuel, rfl⟩ : ∃ f, fuel = f + 1 := ⟨fuel - 1, by omega⟩
    have hguard : 2 * 2 ^ t > 1 := by omega
    -- the sibling access is in bounds
    have haccess : ∀ j, j < 2 * L - 1 → ∃ h, nodes[j]? = some h := by
      intro j hj
      exact ⟨nodes.get ⟨j, by omega⟩, by rw [List.getElem?_eq_getElem (by omega)]; rfl⟩
    -- the recursive call satisfies the invariant one level up
    have hrec : ∃ path,
        proofLoop nodes fuel (index + 2 * 2 ^ t - (index - 2 * (2 * 2 ^ t) + 1) / 2)
          (2 * 2 ^ t) (2 * 2 ^ t / 2) = some path := by
      have h2 : 2 * 2 ^ t / 2 = 2 ^ t := by omega
      rw [h2]
      refine ih fuel (index + 2 * 2 ^ t - (index - 2 * (2 * 2 ^ t) + 1) / 2)
        (by omega) (by rw [hps]; omega) (by omega) (by omega)
    obtain ⟨path, hpath⟩ := hrec
    by_cases hpar : index % 2 = 0
    · obtain ⟨h, hh⟩ := haccess (index + 1) (by omega)
      refine ⟨PositionedHash.Right h :: path, ?_⟩
      rw [proofLoop, if_pos hguard, if_pos hpar, hh]
      simp only [Option.map_some', Option.some_bind]
      rw [if_neg (by omega), hpath]
      rfl
    · obtain ⟨h, hh⟩ := haccess (index - 1) (by omega)
      refine ⟨PositionedHash.Left h :: path, ?_⟩
      rw [proofLoop, if_pos hguard, if_neg hpar, hh]
      simp only [Option.map_some', Option.some_bind]
      rw [if_neg (by omega), hpath]
      rfl

/-- `MerkleTree::proof` succeeds on every in-range index of a tree whose
buffer has the construction invariant shape. -/
theorem proof_some_of_lt {H : Type} (t : MerkleTree H) (m : Nat)
    (hL : t.leaf_count = 2 ^ m) (hnodes : t.nodes.length = 2 * t.leaf_count - 1)
    (index : Nat) (hidx : index < t.leaf_count) :
    ∃ pr, t.proof index = some pr := by
  have hpow1 : (1 : Nat) ≤ 2 ^ m := Nat.one_le_two_pow
  have hroot : ∃ r, t.root = some r := by
    refine ⟨t.nodes.getLast (by intro he; rw [he] at hnodes; simp at hnodes; omega), ?_⟩
    exact List.getLast?_eq_getLast _ _
  obtain ⟨r, hr⟩ := hroot
  have hloop : ∃ path, proofLoop t.nodes t.leaf_count index 0 t.leaf_count = some path := by
    match m, hL with
    | 0, hL =>
      -- a single leaf: the loop body never runs
      have h1 : t.leaf_count = 1 := by rw [hL]; norm_num
      rw [h1]
      exact ⟨[], by simp [proofLoop]⟩
    | m + 1, hL =>
      -- at least two leaves: unfold the first iteration, then use the invariant
      have hb : (1 : Nat) ≤ 2 ^ m := Nat.one_le_two_pow
      have hps : 2 ^ (m + 1) = 2 * 2 ^ m := by ring
      have hLv : t.leaf_count = 2 * 2 ^ m := by rw [hL, hps]
      have hidx' : index < 2 * 2 ^ m := by rw [hLv] at hidx; omega
      have hlen : t.nodes.length = 2 * (2 * 2 ^ m) - 1 := by rw [hnodes, hLv]
      have haccess : ∀ j, j < 2 * (2 * 2 ^ m) - 1 → ∃ h, t.nodes[j]? = some h := by
        intro j hj
        exact ⟨t.nodes.get ⟨j, by omega⟩, by rw [List.getElem?_eq_getElem (by omega)]; rfl⟩
      obtain ⟨f, hf⟩ : ∃ f, t.leaf_count = f + 1 := ⟨t.leaf_count - 1, by omega⟩
      have hfge : f + 1 = 2 * 2 ^ m := by omega
      have hrec : ∃ path,
          proofLoop t.nodes f (index + (f + 1) - (index - 0 + 1) / 2)
            (f + 1) ((f + 1) / 2) = some path := by
        have e1 : (f + 1) / 2 = 2 ^ m := by omega
        rw [e1, hfge]
        exact proofLoop_some t.nodes (2 * 2 ^ m) hlen m f
          (index + 2 * 2 ^ m - (index - 0 + 1) / 2) (by omega)
          (le_of_eq hps) (by omega) (by omega)
      obtain ⟨path, hpath⟩ := hrec
      rw [hf]
      by_cases hpar : index % 2 = 0
      · obtain ⟨h, hh⟩ := haccess (index + 1) (by omega)
        refine ⟨PositionedHash.Right h :: path, ?_⟩
        rw [proofLoop, if_pos (by omega : f + 1 > 1), if_pos hpar, hh]
        simp only [Option.map_some', Option.some_bind]
        rw [if_neg (by omega), hpath]
        rfl
      · obtain ⟨h, hh⟩ := haccess (index - 1) (by omega)
        refine ⟨PositionedHash.Left h :: path, ?_⟩
        rw [proofLoop, if_pos (by omega : f + 1 > 1), if_neg hpar, hh]
        simp only [Option.map_some', Option.some_bind]
        rw [if_neg (by omega), hpath]
        rfl
  obtain ⟨path, hpath⟩ := hloop
  refine ⟨{ root := r, path := path }, ?_⟩
  rw [MerkleTree.proof, if_pos hidx, hpath, hr]
  rfl

/-- Unfolding `MerkleTree::new` on a non-empty item list. -/
theorem MerkleTree.new_eq {Item H : Type} (items : List Item) (hasher : Hasher Item H)
    (x : Item) (hx : items.getLast? = some x) :
    MerkleTree.new items hasher =
      (buildLevels hasher.concat_hashes (nextPowerOfTwo items.length)
          (streamTake (items.map hasher.hash) (hasher.hash x)
            (nextPowerOfTwo items.length))).map
        fun nodes => { nodes := nodes, leaf_count := nextPowerOfTwo items.length } := by
  rw [MerkleTree.new, hx]

theorem getLast?_append_replicate {α : Type} (l : List α) (x : α) (d : Nat)
    (h : l.getLast? = some x) : (l ++ List.replicate d x).getLast? = some x := by
  cases d with
  | zero => simpa using h
  | succ d =>
    rw [List.getLast?_append, List.getLast?_eq_getElem?]
    simp

/-- The first `leaf_count` entries of the node buffer are the item hashes in
input order, right-padded with the hash of the last item. -/
theorem MerkleTree.new_take_leaves {Item H : Type} (items : List Item)
    (hasher : Hasher Item H) (x : Item) (hx : items.getLast? = some x)
    (t : MerkleTree H) (ht : MerkleTree.new items hasher = some t) :
    t.nodes.take t.leaf_count =
      items.map hasher.hash ++
        List.replicate (t.leaf_count - items.length) (hasher.hash x) := by
  obtain ⟨rest, hsome, _⟩ := MerkleTree.new_spec items hasher x hx
  rw [ht] at hsome
  obtain rfl : t = _ := Option.some.inj hsome
  have hlen : (leafHashes items hasher x).length = nextPowerOfTwo items.length := by
    rw [leafHashes, streamTake_length]
  show (leafHashes items hasher x ++ rest).take (nextPowerOfTwo items.length) = _
  rw [List.take_left' hlen, leafHashes,
    streamTake_eq_append _ _ _ (by rw [List.length_map]; exact nextPowerOfTwo_ge _),
    List.length_map]

theorem levelStart_two_mul (m : Nat) :
    ∀ k, levelStart (2 ^ (m + 1)) (k + 1) = 2 ^ (m + 1) + levelStart (2 ^ m) k := by
  intro k
  induction k with
  | zero => simp [levelStart]
  | succ k ih =>
    rw [levelStart, ih, levelStart]
    have h : 2 ^ (m + 1) / 2 ^ (k + 1) = 2 ^ m / 2 ^ k := by
      rw [pow_succ, pow_succ]
      exact Nat.mul_div_mul_right _ _ (by norm_num)
    omega

/-- The closed form of the level offsets: in a tree with `2 ^ m` leaves,
level `k ≤ m` starts at buffer offset `2 ^ (m + 1) - 2 ^ (m + 1 - k)`. -/
theorem levelStart_closed (m : Nat) :
    ∀ k, k ≤ m → levelStart (2 ^ m) k = 2 ^ (m + 1) - 2 ^ (m + 1 - k) := by
  intro k
  induction k with
  | zero => simp [levelStart]
  | succ k ih =>
    intro hk
    rw [levelStart, ih (by omega)]
    have h1 : 2 ^ m / 2 ^ k = 2 ^ (m - k) := Nat.pow_div (by omega) (by norm_num)
    have h2 : 2 ^ (m + 1 - k) = 2 * 2 ^ (m - k) := by
      rw [show m + 1 - k = (m - k) + 1 from by omega, pow_succ]
      ring
    have h3 : 2 ^ (m + 1 - (k + 1)) = 2 ^ (m - k) := by
      congr 1
      omega
    have h4 : 2 ^ (m + 1 - k) ≤ 2 ^ (m + 1) := Nat.pow_le_pow_right (by norm_num) (by omega)
    omega

/-- The buffer-structure lemma: in the output of the level-building loop on a
level of `2 ^ m` nodes, the segment of length `2 ^ (m - k)` starting at
offset `levelStart (2 ^ m) k` is exactly the `k`-fold pairwise combination
of that level — i.e. level `k` of the tree. -/
theorem buildLevels_drop {H : Type} (c : H → H → H) :
    ∀ (k m fuel : Nat) (level : List H), level.length = 2 ^ m → k ≤ m → m ≤ fuel →
      ∃ lv, iterPairs c k level = some lv ∧ lv.length = 2 ^ (m - k) ∧
        ∀ nodes, buildLevels c fuel level = some nodes →
          (nodes.drop (levelStart (2 ^ m) k)).take (2 ^ (m - k)) = lv := by
  intro k
  induction k with
  | zero =>
    intro m fuel level hlen _ hfuel
    refine ⟨level, rfl, by simpa using hlen, ?_⟩
    intro nodes hn
    obtain ⟨rest, hb, _⟩ := buildLevels_pow c m fuel level hlen hfuel
    rw [hn] at hb
    obtain rfl : nodes = level ++ rest := Option.some.inj hb
    show ((level ++ rest).drop (levelStart (2 ^ m) 0)).take (2 ^ (m - 0)) = level
    rw [levelStart, List.drop_zero]
    refine List.take_left' ?_
    rw [hlen]
    congr 1
  | succ k ih =>
    intro m fuel level hlen hk hfuel
    obtain ⟨m', rfl⟩ : ∃ n, m = n + 1 := ⟨m - 1, by omega⟩
    obtain ⟨fuel', rfl⟩ : ∃ f, fuel = f + 1 := ⟨fuel - 1, by omega⟩
    obtain ⟨parents, hp, hplen⟩ := combinePairs_even c (2 ^ m') level (by rw [hlen]; ring)
    obtain ⟨lv, hit, hlvlen, hdrop⟩ := ih m' fuel' parents hplen (by omega) (by omega)
    have hgt : ¬ level.length ≤ 1 := by
      rw [hlen]
      have h2 : (2 : Nat) ≤ 2 ^ (m' + 1) := by
        calc (2 : Nat) = 2 ^ 1 := rfl
        _ ≤ 2 ^ (m' + 1) := Nat.pow_le_pow_right (by norm_num) (by omega)
      omega
    refine ⟨lv, ?_, ?_, ?_⟩
    · rw [iterPairs, hp, Option.some_bind]
      exact hit
    · rw [hlvlen]
      congr 1
      omega
    · intro nodes hn
      rw [buildLevels, if_neg hgt, hp, Option.some_bind] at hn
      cases hb : buildLevels c fuel' parents with
      | none =>
        rw [hb] at hn
        exact Option.noConfusion hn
      | some nodes' =>
        rw [hb, Option.map_some'] at hn
        obtain rfl : nodes = level ++ nodes' := (Option.some.inj hn).symm
        rw [levelStart_two_mul m' k, ← hlen, List.drop_append,
          show 2 ^ (m' + 1 - (k + 1)) = 2 ^ (m' - k) from by congr 1; omega]
        exact hdrop nodes' hb

/-! ## Claim theorems -/

/-- C1 (code bug): the claim says every derived proof validates the effective
item at its index, for every non-empty item sequence.  The code violates it:
for 16 items (here hashed by the collision-free term-algebra hasher) the
proof derived for leaf index 0 does NOT validate item 0 — the walk's
index-update formula `index + level_len - (index - prev_level_len + 1) / 2`
uses `prev_level_len` where the start offset of the current level is needed,
so from the third level up it records nodes of the wrong level. -/
theorem claim_C1_sixteen_leaves_proof_fails_to_validate :
    ((MerkleTree.new (List.range 16) (freeHasher Nat)).bind fun t =>
      (t.proof 0).map fun pr => pr.validate 0 (freeHasher Nat)) = some false := by
  rfl

/-- C2 (code bug): for the 16-item tree, the path derived for leaf 0 has its
level-3 entry equal to `Right(C(H10, H11))` — a node of level 1 — while the
true level-3 sibling of the walk (the node at buffer index 29, covering
leaves 8..15) is a different hash value.  The first three entries and the
path length `log2(leaf_count) = 4` do match the claim. -/
theorem claim_C2_sixteen_leaves_wrong_sibling :
    ((MerkleTree.new (List.range 16) (freeHasher Nat)).bind fun t =>
        (t.proof 0).map MerkleProof.path) =
      some [PositionedHash.Right (FreeHash.item 1),
        PositionedHash.Right (FreeHash.node (FreeHash.item 2) (FreeHash.item 3)),
        PositionedHash.Right (FreeHash.node
          (FreeHash.node (FreeHash.item 4) (FreeHash.item 5))
          (FreeHash.node (FreeHash.item 6) (FreeHash.item 7))),
        PositionedHash.Right (FreeHash.node (FreeHash.item 10) (FreeHash.item 11))] ∧
    ((MerkleTree.new (List.range 16) (freeHasher Nat)).map fun t => t.nodes[29]?) =
      some (some (FreeHash.node
        (FreeHash.node (FreeHash.node (FreeHash.item 8) (FreeHash.item 9))
          (FreeHash.node (FreeHash.item 10) (FreeHash.item 11)))
        (FreeHash.node (FreeHash.node (FreeHash.item 12) (FreeHash.item 13))
          (FreeHash.node (FreeHash.item 14) (FreeHash.item 15))))) ∧
    FreeHash.node (FreeHash.item 10) (FreeHash.item 11) ≠
      FreeHash.node
        (FreeHash.node (FreeHash.node (FreeHash.item 8) (FreeHash.item 9))
          (FreeHash.node (FreeHash.item 10) (FreeHash.item 11)))
        (FreeHash.node (FreeHash.node (FreeHash.item 12) (FreeHash.item 13))
          (FreeHash.node (FreeHash.item 14) (FreeHash.item 15))) := by
  refine ⟨rfl, rfl, ?_⟩
  decide

/-- C3 (confirmed): the 8-item scenario over the strings "0".."7", with the
hasher instantiated by the collision-free term-algebra hasher (`H` = `item`,
`C` = `node`): `proof(0).path = [Right(H1), Right(H23), Right(H47)]`,
`proof(6).path = [Right(H7), Left(H45), Left(H03)]`,
`proof(6).validate("6") = true` and `proof(6).validate("foo") = false`. -/
theorem claim_C3_eight_item_scenario :
    ((MerkleTree.new ["0", "1", "2", "3", "4", "5", "6", "7"] (freeHasher String)).bind
        fun t => (t.proof 0).map MerkleProof.path) =
      some [PositionedHash.Right (FreeHash.item "1"),
        PositionedHash.Right (FreeHash.node (FreeHash.item "2") (FreeHash.item "3")),
        PositionedHash.Right (FreeHash.node
          (FreeHash.node (FreeHash.item "4") (FreeHash.item "5"))
          (FreeHash.node (FreeHash.item "6") (FreeHash.item "7")))] ∧
    ((MerkleTree.new ["0", "1", "2", "3", "4", "5", "6", "7"] (freeHasher String)).bind
        fun t => (t.proof 6).map MerkleProof.path) =
      some [PositionedHash.Right (FreeHash.item "7"),
        PositionedHash.Left (FreeHash.node (FreeHash.item "4") (FreeHash.item "5")),
        PositionedHash.Left (FreeHash.node
          (FreeHash.node (FreeHash.item "0") (FreeHash.item "1"))
          (FreeHash.node (FreeHash.item "2") (FreeHash.item "3")))] ∧
    ((MerkleTree.new ["0", "1", "2", "3", "4", "5", "6", "7"] (freeHasher String)).bind
        fun t => (t.proof 6).map fun pr => pr.validate "6" (freeHasher String)) =
      some true ∧
    ((MerkleTree.new ["0", "1", "2", "3", "4", "5", "6", "7"] (freeHasher String)).bind
        fun t => (t.proof 6).map fun pr => pr.validate "foo" (freeHasher String)) =
      some false := by
  refine ⟨rfl, rfl, rfl, rfl⟩

/-- C4 (confirmed): the leaf level is the item hashes in input order padded
on the right with the hash of the last item up to `leaf_count`; the tree
equals the one built from the item list right-padded with copies of the last
item up to the next power of two (so its leaf hashes are the original leaf
hashes padded with the last item's hash); and for three items the root is
`C(C(H(one), H(two)), C(H(three), H(three)))`. -/
theorem claim_C4_leaf_level_and_padding {Item H : Type} (hasher : Hasher Item H)
    (items : List Item) (x : Item) (hx : items.getLast? = some x) :
    (∀ t, MerkleTree.new items hasher = some t →
      t.nodes.take t.leaf_count =
        items.map hasher.hash ++
          List.replicate (t.leaf_count - items.length) (hasher.hash x)) ∧
    MerkleTree.new
        (items ++ List.replicate (nextPowerOfTwo items.length - items.length) x) hasher =
      MerkleTree.new items hasher ∧
    ∀ one two three : Item,
      (MerkleTree.new [one, two, three] hasher).bind MerkleTree.root =
        some (hasher.concat_hashes
          (hasher.concat_hashes (hasher.hash one) (hasher.hash two))
          (hasher.concat_hashes (hasher.hash three) (hasher.hash three))) := by
  refine ⟨fun t ht => MerkleTree.new_take_leaves items hasher x hx t ht, ?_,
    fun one two three => rfl⟩
  have hge := nextPowerOfTwo_ge items.length
  have hx' := getLast?_append_replicate items x
    (nextPowerOfTwo items.length - items.length) hx
  have hplen :
      (items ++ List.replicate (nextPowerOfTwo items.length - items.length) x).length =
        nextPowerOfTwo items.length := by
    rw [List.length_append, List.length_replicate]
    omega
  have hidem : nextPowerOfTwo (nextPowerOfTwo items.length) = nextPowerOfTwo items.length := by
    obtain ⟨m, hm⟩ := nextPowerOfTwo_isPow items.length
    rw [hm]
    exact nextPowerOfTwo_pow m
  have hA :
      ((items ++ List.replicate (nextPowerOfTwo items.length - items.length) x).map
        hasher.hash).length ≤ nextPowerOfTwo items.length := by
    rw [List.length_map, hplen]
  have hB : (items.map hasher.hash).length ≤ nextPowerOfTwo items.length := by
    rw [List.length_map]; exact hge
  have hleaves :
      streamTake
        ((items ++ List.replicate (nextPowerOfTwo items.length - items.length) x).map
          hasher.hash)
        (hasher.hash x) (nextPowerOfTwo items.length) =
      streamTake (items.map hasher.hash) (hasher.hash x) (nextPowerOfTwo items.length) := by
    rw [streamTake_eq_append _ _ _ hA, streamTake_eq_append _ _ _ hB,
      List.map_append, List.map_replicate]
    simp only [List.length_append, List.length_map, List.length_replicate]
    have h0 : nextPowerOfTwo items.length -
        (items.length + (nextPowerOfTwo items.length - items.length)) = 0 := by omega
    rw [h0, List.replicate_zero, List.append_nil]
  rw [MerkleTree.new_eq _ hasher x hx', MerkleTree.new_eq items hasher x hx,
    hplen, hidem, hleaves]

/-- Witness for C4 at the three items `[0, 1, 2]` over the free hasher. -/
theorem claim_C4_leaf_level_and_padding_witness :
    ([0, 1, 2] : List Nat).getLast? = some 2 ∧
    ((∀ t, MerkleTree.new [0, 1, 2] (freeHasher Nat) = some t →
        t.nodes.take t.leaf_count =
          [0, 1, 2].map (freeHasher Nat).hash ++
            List.replicate (t.leaf_count - ([0, 1, 2] : List Nat).length)
              ((freeHasher Nat).hash 2)) ∧
      MerkleTree.new
          ([0, 1, 2] ++ List.replicate
            (nextPowerOfTwo ([0, 1, 2] : List Nat).length - ([0, 1, 2] : List Nat).length) 2)
          (freeHasher Nat) =
        MerkleTree.new [0, 1, 2] (freeHasher Nat) ∧
      ∀ one two three : Nat,
        (MerkleTree.new [one, two, three] (freeHasher Nat)).bind MerkleTree.root =
          some ((freeHasher Nat).concat_hashes
            ((freeHasher Nat).concat_hashes
              ((freeHasher Nat).hash one) ((freeHasher Nat).hash two))
            ((freeHasher Nat).concat_hashes
              ((freeHasher Nat).hash three) ((freeHasher Nat).hash three)))) :=
  ⟨rfl, claim_C4_leaf_level_and_padding (freeHasher Nat) [0, 1, 2] 2 rfl⟩

/-- C5 (confirmed): for a tree built from `k ≥ 1` items, `leaf_count` is the
least power of two that is at least `k` (`k` itself for a power of two, `1`
for a single item), the buffer has exactly `2 * leaf_count - 1` nodes,
indices `[0, leaf_count)` hold the leaves, and the last buffer element is
the hash returned by `root()`.  The embedding is purely functional, so a
constructed tree is never mutated. -/
theorem claim_C5_construction_invariants {Item H : Type} (items : List Item)
    (hasher : Hasher Item H) (x : Item) (hx : items.getLast? = some x) :
    ∃ t, MerkleTree.new items hasher = some t ∧
      (∃ m, t.leaf_count = 2 ^ m) ∧
      items.length ≤ t.leaf_count ∧
      (∀ m, items.length ≤ 2 ^ m → t.leaf_count ≤ 2 ^ m) ∧
      ((∃ m, items.length = 2 ^ m) → t.leaf_count = items.length) ∧
      (items.length = 1 → t.leaf_count = 1) ∧
      t.nodes.length = 2 * t.leaf_count - 1 ∧
      t.nodes.take t.leaf_count =
        items.map hasher.hash ++
          List.replicate (t.leaf_count - items.length) (hasher.hash x) ∧
      ∃ r, t.root = some r ∧ t.nodes[t.nodes.length - 1]? = some r := by
  obtain ⟨rest, hsome, hlen⟩ := MerkleTree.new_spec items hasher x hx
  have hne : leafHashes items hasher x ++ rest ≠ [] := by
    intro he
    rw [he] at hlen
    have := nextPowerOfTwo_pos items.length
    simp at hlen
    omega
  refine ⟨_, hsome, nextPowerOfTwo_isPow items.length, nextPowerOfTwo_ge items.length,
    fun m h => nextPowerOfTwo_min items.length m h, ?_, ?_, hlen,
    MerkleTree.new_take_leaves items hasher x hx _ hsome, ?_⟩
  · intro ⟨m, hm⟩
    rw [hm]
    exact nextPowerOfTwo_pow m
  · intro h1
    rw [h1]
    rfl
  · refine ⟨(leafHashes items hasher x ++ rest).getLast hne, ?_, ?_⟩
    · exact List.getLast?_eq_getLast _ hne
    · show (leafHashes items hasher x ++ rest)[(leafHashes items hasher x ++ rest).length - 1]?
        = _
      rw [← List.getLast?_eq_getElem?]
      exact List.getLast?_eq_getLast _ hne

/-- Witness for C5 at the three items `[0, 1, 2]` over the free hasher. -/
theorem claim_C5_construction_invariants_witness :
    ([0, 1, 2] : List Nat).getLast? = some 2 ∧
    (∃ t, MerkleTree.new [0, 1, 2] (freeHasher Nat) = some t ∧
      (∃ m, t.leaf_count = 2 ^ m) ∧
      ([0, 1, 2] : List Nat).length ≤ t.leaf_count ∧
      (∀ m, ([0, 1, 2] : List Nat).length ≤ 2 ^ m → t.leaf_count ≤ 2 ^ m) ∧
      ((∃ m, ([0, 1, 2] : List Nat).length = 2 ^ m) →
        t.leaf_count = ([0, 1, 2] : List Nat).length) ∧
      (([0, 1, 2] : List Nat).length = 1 → t.leaf_count = 1) ∧
      t.nodes.length = 2 * t.leaf_count - 1 ∧
      t.nodes.take t.leaf_count =
        [0, 1, 2].map (freeHasher Nat).hash ++
          List.replicate (t.leaf_count - ([0, 1, 2] : List Nat).length)
            ((freeHasher Nat).hash 2) ∧
      ∃ r, t.root = some r ∧ t.nodes[t.nodes.length - 1]? = some r) :=
  ⟨rfl, claim_C5_construction_invariants [0, 1, 2] (freeHasher Nat) 2 rfl⟩

/-- C7 (confirmed): construction fails (modelled: returns `none` for the
panic) exactly when the item list is empty, and `proof(index)` fails exactly
when `index ≥ leaf_count`; on all inputs meeting the preconditions both
succeed — in particular the proof walk never panics on indexing or
subtraction.  That the failure is a fatal panic rather than a returned
`Result` is a fact about Rust control flow outside the embedding. -/
theorem claim_C7_fail_fast {Item H : Type} (items : List Item) (hasher : Hasher Item H) :
    (MerkleTree.new items hasher = none ↔ items = []) ∧
    ∀ t, MerkleTree.new items hasher = some t → ∀ index,
      (t.proof index = none ↔ t.leaf_count ≤ index) := by
  constructor
  · constructor
    · intro hnone
      by_contra hne
      obtain ⟨x, hx⟩ : ∃ x, items.getLast? = some x :=
        ⟨items.getLast hne, List.getLast?_eq_getLast _ hne⟩
      obtain ⟨rest, hsome, _⟩ := MerkleTree.new_spec items hasher x hx
      rw [hsome] at hnone
      exact Option.noConfusion hnone
    · intro h
      subst h
      rfl
  · intro t ht index
    have hne : items ≠ [] := by
      intro h
      subst h
      exact Option.noConfusion (ht.symm.trans rfl)
    obtain ⟨x, hx⟩ : ∃ x, items.getLast? = some x :=
      ⟨items.getLast hne, List.getLast?_eq_getLast _ hne⟩
    obtain ⟨rest, hsome, hlen⟩ := MerkleTree.new_spec items hasher x hx
    rw [ht] at hsome
    obtain rfl : t = _ := Option.some.inj hsome
    obtain ⟨m, hm⟩ := nextPowerOfTwo_isPow items.length
    constructor
    · intro hnone
      by_contra hge
      have hlt : index < nextPowerOfTwo items.length := by
        simp only [not_le] at hge
        exact hge
      obtain ⟨pr, hpr⟩ := proof_some_of_lt
        { nodes := leafHashes items hasher x ++ rest,
          leaf_count := nextPowerOfTwo items.length } m hm hlen index hlt
      rw [hpr] at hnone
      exact Option.noConfusion hnone
    · intro hge
      rw [MerkleTree.proof, if_neg (by simp only [not_lt]; exact hge)]

/-- Witness for C7 at the singleton tree over the free hasher. -/
theorem claim_C7_fail_fast_witness :
    ((⟨[FreeHash.item 5], 1⟩ : MerkleTree (FreeHash Nat)).proof 1 = none ↔
      (⟨[FreeHash.item 5], 1⟩ : MerkleTree (FreeHash Nat)).leaf_count ≤ 1) :=
  (claim_C7_fail_fast [5] (freeHasher Nat)).2 ⟨[FreeHash.item 5], 1⟩ rfl 1

/-- C6 (confirmed): `validate(item, hasher)` equals the fold of
`concat_hashes` over the path in leaf-to-root order — `Left(l)` turns the
accumulator `h` into `concat_hashes(l, h)` and `Right(r)` into
`concat_hashes(h, r)` — starting from the item's hash, compared with the
stored root.  It is a total Lean function into `Bool`, hence pure and
never failing on any input. -/
theorem claim_C6_validate_is_fold {Item H : Type} [DecidableEq H]
    (p : MerkleProof H) (item : Item) (hasher : Hasher Item H) :
    p.validate item hasher = true ↔
      p.path.foldl
        (fun hash positioned_hash =>
          match positioned_hash with
          | PositionedHash.Left left => hasher.concat_hashes left hash
          | PositionedHash.Right right => hasher.concat_hashes hash right)
        (hasher.hash item) = p.root := by
  simp [MerkleProof.validate]

/-- C8 (confirmed): the default `concat_hashes(a, b)` of the hasher
capability equals `hash` applied to the byte concatenation of `a`'s bytes
followed by `b`'s bytes. -/
theorem claim_C8_default_concat_hashes {N : Nat} (hashBytes : List Nat → Hash N)
    (a b : Hash N) :
    Hasher.defaultConcatHashes hashBytes a b = hashBytes (a.bytes ++ b.bytes) := by
  simp [Hasher.defaultConcatHashes]

/-- C9 (confirmed): the tree built from a single item `x` has
`leaf_count = 1` and `root() = hash(x)`, for every item and hasher. -/
theorem claim_C9_singleton {Item H : Type} (x : Item) (hasher : Hasher Item H) :
    ∃ t, MerkleTree.new [x] hasher = some t ∧ t.leaf_count = 1 ∧
      t.root = some (hasher.hash x) :=
  ⟨{ nodes := [hasher.hash x], leaf_count := 1 }, rfl, rfl, rfl⟩

/-- C10 (confirmed): in the flat node buffer of a built tree with
`leaf_count = 2 ^ m`, level `k` (of length `leaf_count / 2 ^ k`) starts at
offset `2 * leaf_count - 2 * (leaf_count / 2 ^ k)` — the segment there is
the `k`-fold pairwise combination of the leaf level; for levels of length at
least 2 that offset is even, so the parity of a flat buffer index equals the
parity of the node's position within its level — the property the even/odd
test of proof derivation relies on. -/
theorem claim_C10_level_offset_parity {Item H : Type} (items : List Item)
    (hasher : Hasher Item H) (t : MerkleTree H)
    (hT : MerkleTree.new items hasher = some t) (m k : Nat)
    (hm : t.leaf_count = 2 ^ m) (hk : k ≤ m)
    (hlev : 2 ≤ t.leaf_count / 2 ^ k) :
    levelStart t.leaf_count k = 2 * t.leaf_count - 2 * (t.leaf_count / 2 ^ k) ∧
    levelStart t.leaf_count k % 2 = 0 ∧
    (∃ lv, iterPairs hasher.concat_hashes k (t.nodes.take t.leaf_count) = some lv ∧
      lv.length = t.leaf_count / 2 ^ k ∧
      (t.nodes.drop (levelStart t.leaf_count k)).take (t.leaf_count / 2 ^ k) = lv) ∧
    ∀ i, levelStart t.leaf_count k ≤ i →
      i < levelStart t.leaf_count k + t.leaf_count / 2 ^ k →
      i % 2 = (i - levelStart t.leaf_count k) % 2 := by
  have hne : items ≠ [] := by
    intro h
    subst h
    exact Option.noConfusion hT
  obtain ⟨x, hx⟩ : ∃ x, items.getLast? = some x :=
    ⟨items.getLast hne, List.getLast?_eq_getLast _ hne⟩
  rw [MerkleTree.new_eq items hasher x hx] at hT
  cases hbuild : buildLevels hasher.concat_hashes (nextPowerOfTwo items.length)
      (streamTake (items.map hasher.hash) (hasher.hash x) (nextPowerOfTwo items.length)) with
  | none =>
    rw [hbuild] at hT
    exact Option.noConfusion hT
  | some nodes =>
    rw [hbuild, Option.map_some'] at hT
    obtain rfl : ({ nodes := nodes, leaf_count := nextPowerOfTwo items.length } :
        MerkleTree H) = t := Option.some.inj hT
    dsimp only at hm hlev ⊢
    have hmle : m ≤ nextPowerOfTwo items.length := by
      rw [hm]
      exact le_of_lt (Nat.lt_two_pow m)
    have hleaves_len :
        (streamTake (items.map hasher.hash) (hasher.hash x)
          (nextPowerOfTwo items.length)).length = 2 ^ m := by
      rw [streamTake_length]
      exact hm
    obtain ⟨rest, hsome2, _⟩ :=
      buildLevels_pow hasher.concat_hashes m (nextPowerOfTwo items.length) _ hleaves_len hmle
    rw [hbuild] at hsome2
    obtain hnodes_eq : nodes = _ ++ rest := Option.some.inj hsome2
    have htake : nodes.take (nextPowerOfTwo items.length) =
        streamTake (items.map hasher.hash) (hasher.hash x) (nextPowerOfTwo items.length) := by
      rw [hnodes_eq]
      refine List.take_left' ?_
      rw [streamTake_length]
    obtain ⟨lv, hit, hlvlen, hdropfn⟩ :=
      buildLevels_drop hasher.concat_hashes k m (nextPowerOfTwo items.length) _
        hleaves_len hk hmle
    have hdrop := hdropfn nodes hbuild
    have hdiv : nextPowerOfTwo items.length / 2 ^ k = 2 ^ (m - k) := by
      rw [hm]
      exact Nat.pow_div hk (by norm_num)
    have hclosed := levelStart_closed m k hk
    have e1 : 2 ^ (m + 1) = 2 * 2 ^ m := by ring
    have e2 : 2 ^ (m + 1 - k) = 2 * 2 ^ (m - k) := by
      rw [show m + 1 - k = (m - k) + 1 from by omega, pow_succ]
      ring
    have hle : 2 ^ (m + 1 - k) ≤ 2 ^ (m + 1) := Nat.pow_le_pow_right (by norm_num) (by omega)
    have hpos : (1 : Nat) ≤ 2 ^ (m - k) := Nat.one_le_two_pow
    have heven : levelStart (nextPowerOfTwo items.length) k % 2 = 0 := by
      rw [hm, hclosed]
      omega
    have hdiv2 : 2 ^ m / 2 ^ k = 2 ^ (m - k) := Nat.pow_div hk (by norm_num)
    refine ⟨?_, heven, ⟨lv, ?_, ?_, ?_⟩, ?_⟩
    · rw [hm, hclosed]
      omega
    · rw [htake]
      exact hit
    · rw [hdiv]
      exact hlvlen
    · rw [hm, hdiv2]
      exact hdrop
    · intro i h1 h2
      omega

/-- Witness for C10 at the four-leaf tree over the free hasher, level 1. -/
theorem claim_C10_level_offset_parity_witness :
    levelStart witnessTree4.leaf_count 1 =
      2 * witnessTree4.leaf_count - 2 * (witnessTree4.leaf_count / 2 ^ 1) ∧
    levelStart witnessTree4.leaf_count 1 % 2 = 0 ∧
    (∃ lv, iterPairs (freeHasher Nat).concat_hashes 1
        (witnessTree4.nodes.take witnessTree4.leaf_count) = some lv ∧
      lv.length = witnessTree4.leaf_count / 2 ^ 1 ∧
      (witnessTree4.nodes.drop (levelStart witnessTree4.leaf_count 1)).take
        (witnessTree4.leaf_count / 2 ^ 1) = lv) ∧
    ∀ i, levelStart witnessTree4.leaf_count 1 ≤ i →
      i < levelStart witnessTree4.leaf_count 1 + witnessTree4.leaf_count / 2 ^ 1 →
      i % 2 = (i - levelStart witnessTree4.leaf_count 1) % 2 :=
  claim_C10_level_offset_parity [0, 1, 2, 3] (freeHasher Nat) witnessTree4 rfl 2 1
    (by decide) (by decide) (by decide)

end Angie
